import Mathlib

/-!
Verification of the diff-position resolution, suggestion parsing, and
patch-application core of harperbot (src/harperbot/harperbot.py).

The Python code is shallowly embedded: each function over in-memory text
becomes a Lean function over `String` / `List String`.  Loops that walk an
index through a list become structural or fuelled recursions; the fuel
parameter counts loop iterations, so a run of the Python loop that never
terminates corresponds to the fuelled function returning `outOfFuel` for
every fuel value.
-/

namespace Harperbot

/-!
String primitives.  Python's `str.startswith`, `str.split("\n")`,
`str.strip` and the `in` substring test are embedded as character-list
computations (Lean's built-in `String.startsWith`, `String.splitOn`,
`String.trim` are defined by well-founded recursion on byte positions and
do not reduce in the kernel, so concrete witnesses could not be evaluated
through them).
-/

/-- Embeds Python `s.startswith(pre)`. -/
def strStartsWith (s pre : String) : Bool :=
  pre.data.isPrefixOf s.data

/-- Substring test on character lists: does `needle` occur inside `hay`?
Embeds Python's `needle in hay` membership test on strings. -/
def containsAux (needle : List Char) : List Char → Bool
  | [] => needle.isEmpty
  | c :: t => needle.isPrefixOf (c :: t) || containsAux needle t

/-- Embeds Python `needle in hay` for strings. -/
def strContains (hay needle : String) : Bool :=
  containsAux needle.data hay.data

/-- Split a character list at newline characters. -/
def splitLinesAux (cs : List Char) (acc : List Char) : List String :=
  match cs with
  | [] => [String.mk acc.reverse]
  | c :: t =>
    if c = '\n' then String.mk acc.reverse :: splitLinesAux t []
    else splitLinesAux t (c :: acc)

/-- Embeds Python `s.split("\n")`: the segments of `s` between newline
characters, in order; always at least one segment. -/
def splitLines (s : String) : List String :=
  splitLinesAux s.data []

/-- Embeds Python `s[n:]` (also `s[n:]` via `String.drop` semantics):
drop the first `n` characters. -/
def strDrop (s : String) (n : Nat) : String :=
  String.mk (s.data.drop n)

/-- ASCII whitespace, as stripped by Python `str.strip()`. -/
def isSpaceChar (c : Char) : Bool :=
  c = ' ' || c = '\t' || c = '\n' || c = '\r' || c = '\x0b' || c = '\x0c'

/-- Embeds Python `s.strip()`: remove leading and trailing whitespace. -/
def strTrim (s : String) : String :=
  String.mk (((s.data.dropWhile isSpaceChar).reverse.dropWhile isSpaceChar).reverse)

/-- Numeric value of a list of decimal digit characters (most significant first). -/
def digitsToNat (ds : List Char) : Nat :=
  ds.foldl (fun n c => n * 10 + (c.toNat - 48)) 0

/-- Parse a maximal nonempty run of decimal digits (regex `\d+`) from the
front of the character list, returning its value and the remainder. -/
def takeDigits (cs : List Char) : Option (Nat × List Char) :=
  let ds := cs.takeWhile Char.isDigit
  if ds.isEmpty then none else some (digitsToNat ds, cs.dropWhile Char.isDigit)

/-- Parse the optional group `(?:,\d+)?`: a comma followed by digits, or
nothing.  Committing to the group when a comma is present is equivalent to
the regex's backtracking here, because the character required after the
group is a space, never a comma. -/
def skipOptCommaDigits (cs : List Char) : Option (List Char) :=
  match cs with
  | ',' :: rest =>
    match takeDigits rest with
    | some (_, rest2) => some rest2
    | none => none
  | _ => some cs

/-- Embeds `re.match(r"@@ -\d+(?:,\d+)? \+(\d+)(?:,\d+)? @@", line)` from
`find_diff_position` / `parse_diff_for_suggestions`, returning the captured
new-file start line.  `re.match` anchors at the start only, so trailing
characters after the closing `@@` are allowed. -/
def hunkNewStart (s : String) : Option Nat :=
  match s.data with
  | '@' :: '@' :: ' ' :: '-' :: rest =>
    match takeDigits rest with
    | none => none
    | some (_, r1) =>
      match skipOptCommaDigits r1 with
      | none => none
      | some r2 =>
        match r2 with
        | ' ' :: '+' :: r3 =>
          match takeDigits r3 with
          | none => none
          | some (n, r4) =>
            match skipOptCommaDigits r4 with
            | none => none
            | some r5 =>
              match r5 with
              | ' ' :: '@' :: '@' :: _ => some n
              | _ => none
        | _ => none
  | _ => none

/-- Collect the body of a hunk: lines up to (but excluding) the next line
starting with `@@` or `diff --git`, exactly as the inner collection loop of
`find_diff_position` (harperbot.py lines 63-70). -/
def collectHunk : List String → List String × List String
  | [] => ([], [])
  | l :: rest =>
    if strStartsWith l "@@" || strStartsWith l "diff --git" then ([], l :: rest)
    else
      let p := collectHunk rest
      (l :: p.1, p.2)

/-- The position-search walk over one hunk body (harperbot.py lines 73-86):
`current_line` starts at the hunk's new-file start, `position` at 1; an
added line matching the target returns the position; added and context
lines advance `current_line`; every line advances `position`. -/
def scanHunkBody (body : List String) (target : Nat) (currentLine : Nat)
    (position : Nat) : Option Nat :=
  match body with
  | [] => none
  | l :: rest =>
    if strStartsWith l "+" then
      if currentLine == target then some position
      else scanHunkBody rest target (currentLine + 1) (position + 1)
    else if strStartsWith l "-" then
      scanHunkBody rest target currentLine (position + 1)
    else
      scanHunkBody rest target (currentLine + 1) (position + 1)

/-- Result of the inner `while` loop of `find_diff_position`
(harperbot.py lines 55-90): a returned position, a `break` at the next
`diff --git` header (handing the remaining lines back to the outer loop),
running off the end of the input, or fuel exhaustion (the Python loop does
not advance its index when a line starts with `@@` but fails the hunk
header regex, so from such a state it never terminates). -/
inductive InnerRes where
  | found (p : Nat)
  | brk (rest : List String)
  | finished
  | outOfFuel
deriving DecidableEq

/-- One result of `find_diff_position`: a position, `None`, or divergence
of the fuelled interpreter. -/
inductive LoopOut where
  | found (p : Nat)
  | notFound
  | outOfFuel
deriving DecidableEq

/-- Fuelled embedding of the inner `while` loop of `find_diff_position`
(harperbot.py lines 55-90).  One fuel unit is one iteration of the Python
loop; note the branch where the line starts with `@@` but the hunk header
regex fails re-examines the same line without advancing. -/
def innerLoop (target : Nat) : Nat → List String → InnerRes
  | 0, _ => .outOfFuel
  | _ + 1, [] => .finished
  | fuel + 1, l :: rest =>
    if strStartsWith l "@@" then
      match hunkNewStart l with
      | some hs =>
        match scanHunkBody (collectHunk rest).1 target hs 1 with
        | some p => .found p
        | none => innerLoop target fuel (collectHunk rest).2
      | none => innerLoop target fuel (l :: rest)
    else if strStartsWith l "diff --git" then .brk (l :: rest)
    else innerLoop target fuel rest

/-- Fuelled embedding of the outer `while` loop of `find_diff_position`
(harperbot.py lines 50-92): scan for a `diff --git` header line containing
the substring `b/<file_path>`, then run the inner loop on the lines after
it; on the inner loop's `break` the outer loop resumes at the header the
inner loop stopped at. -/
def outerLoop (filePath : String) (target : Nat) : Nat → List String → LoopOut
  | 0, _ => .outOfFuel
  | _ + 1, [] => .notFound
  | fuel + 1, l :: rest =>
    if strStartsWith l "diff --git" && strContains l ("b/" ++ filePath) then
      match innerLoop target fuel rest with
      | .found p => .found p
      | .finished => .notFound
      | .brk rest2 => outerLoop filePath target fuel rest2
      | .outOfFuel => .outOfFuel
    else outerLoop filePath target fuel rest

/-- `find_diff_position` over the already-split line list.  The fuel
`2 * length + 2` dominates the loop iteration count of every terminating
run (each iteration past one consumes an input line, except the one
re-examination of a header line after an inner `break`). -/
def find_diff_position_lines (lines : List String) (filePath : String)
    (target : Nat) : LoopOut :=
  outerLoop filePath target (2 * lines.length + 2) lines

/-- Embeds `find_diff_position(diff, file_path, line_number)`
(harperbot.py lines 41-93). -/
def find_diff_position (diff : String) (filePath : String) (target : Nat) :
    LoopOut :=
  find_diff_position_lines (splitLines diff) filePath target

/-! Embedding of `parse_diff_for_suggestions` (harperbot.py lines 395-425). -/

/-- The loop state of `parse_diff_for_suggestions`: the last parsed hunk
start (`None` until a hunk header is seen), the collected `+` lines with
their prefix stripped, the running new-file line counter, and the captured
line number of the first added line. -/
structure ParseState where
  hunkStart : Option Nat
  suggestionLines : List String
  currentLine : Nat
  lineNum : Nat
deriving DecidableEq

/-- One iteration of the `for line in lines` loop of
`parse_diff_for_suggestions` (harperbot.py lines 405-422): a parseable hunk
header resets the line counter; other lines are classified only once a hunk
header has been seen; added lines are buffered (first one capturing the
line number) and advance the counter, removed lines do neither, context
lines only advance the counter. -/
def parseStep (st : ParseState) (line : String) : ParseState :=
  if strStartsWith line "@@" then
    match hunkNewStart line with
    | some n => { st with hunkStart := some n, currentLine := n }
    | none => st
  else
    match st.hunkStart with
    | none => st
    | some _ =>
      if strStartsWith line "+" then
        { st with
          lineNum := if st.suggestionLines.isEmpty then st.currentLine else st.lineNum,
          suggestionLines := st.suggestionLines ++ [strDrop line 1],
          currentLine := st.currentLine + 1 }
      else if strStartsWith line "-" then st
      else { st with currentLine := st.currentLine + 1 }

/-- The body of `parse_diff_for_suggestions` after the input has been
stripped and split into lines: require a `--- a/` first line, fold the
classification loop over all lines, and return the extracted triple if any
added line was collected. -/
def parse_lines (lines : List String) : Option (String × Nat × String) :=
  match lines with
  | [] => none
  | l0 :: _ =>
    if strStartsWith l0 "--- a/" then
      let st := lines.foldl parseStep ⟨none, [], 0, 0⟩
      if st.suggestionLines.isEmpty then none
      else some (strDrop l0 6, st.lineNum, String.intercalate "\n" st.suggestionLines)
    else none

/-- Embeds `parse_diff_for_suggestions(diff_text)` (harperbot.py
lines 395-425). -/
def parse_diff_for_suggestions (diffText : String) :
    Option (String × Nat × String) :=
  parse_lines (splitLines (strTrim diffText))

/-! Embedding of the fenced diff block extraction loop of
`parse_code_suggestions` (harperbot.py lines 448-459). -/

/-- Least index at which `needle` occurs in `hay`, or `none`.  Embeds
Python `hay.find(needle)` (restricted to a nonnegative result). -/
def findAt (needle : List Char) : List Char → Option Nat
  | [] => if needle.isEmpty then some 0 else none
  | c :: t =>
    if needle.isPrefixOf (c :: t) then some 0
    else (findAt needle t).map (· + 1)

/-- The `while True` extraction loop of `parse_code_suggestions`, searching
relative to the remaining suffix: find the next <code>```diff\n</code>
start marker, then the next <code>\n```</code> end marker after it; emit
the span between them and continue after the end marker; if either search
fails, stop (an unterminated start marker emits nothing).  The literal
offsets 8 and 4 are the marker lengths, as in the Python source
(`start_pos + 8`, `end_pos + 4`).  The loop always advances past the end
marker, so any fuel exceeding the input length is sufficient
(`extractAuxF_irrel`); the recursion is structural on the fuel so that
concrete runs reduce in the kernel. -/
def extractAuxF : Nat → List Char → List String
  | 0, _ => []
  | fuel + 1, cs =>
    match findAt "```diff\n".data cs with
    | none => []
    | some i =>
      match findAt "\n```".data (cs.drop (i + 8)) with
      | none => []
      | some j =>
        String.mk ((cs.drop (i + 8)).take j) :: extractAuxF fuel (cs.drop (i + 8 + j + 4))

/-- The extraction loop at its canonical (sufficient) fuel. -/
def extractAux (cs : List Char) : List String :=
  extractAuxF (cs.length + 1) cs

/-- Embeds the fenced <code>```diff</code> block extraction of
`parse_code_suggestions` (harperbot.py lines 448-459). -/
def extractDiffBlocks (analysis : String) : List String :=
  extractAux analysis.data

/-- Embeds `parse_code_suggestions(analysis)` (harperbot.py lines 442-466):
each extracted block is parsed, failures are dropped, and the line number
is rendered back to a string. -/
def parse_code_suggestions (analysis : String) : List (String × String × String) :=
  (extractDiffBlocks analysis).filterMap fun b =>
    (parse_diff_for_suggestions b).map fun t => (t.1, toString t.2.1, t.2.2)

/-! Embedding of the patch-application loop of `apply_suggestions_to_pr`
(harperbot.py lines 602-633). -/

/-- One iteration of the `for line, suggestion in suggs` loop
(harperbot.py lines 609-630), acting on the state
(current line list, cumulative offset, applied flag).  The target line is
an integer; an adjusted index outside `[0, len(lines))` skips the edit. -/
def applyStep (st : List String × Int × Bool) (e : Int × String) :
    List String × Int × Bool :=
  let adjusted : Int := e.1 - 1 + st.2.1
  if 0 ≤ adjusted ∧ adjusted < st.1.length then
    let suggLines := splitLines e.2
    (st.1.take adjusted.toNat ++ suggLines ++ st.1.drop (adjusted.toNat + 1),
     st.2.1 + ((suggLines.length : Int) - 1),
     true)
  else st

/-- The per-file body of `apply_suggestions_to_pr` (harperbot.py
lines 602-633) over an already-split line list: sort the batch ascending
by target line, then fold the application loop; returns the final line
list and the `applied` flag. -/
def applyEditsLines (lines : List String) (suggs : List (Int × String)) :
    List String × Bool :=
  let sorted := List.insertionSort (fun a b => a.1 ≤ b.1) suggs
  let st := sorted.foldl applyStep (lines, 0, false)
  (st.1, st.2.2)

/-- The per-file content transformation of `apply_suggestions_to_pr`:
split the current content, apply the sorted batch, join.  Returns the new
content together with the `applied` flag (harperbot.py lines 602-633). -/
def applyEdits (content : String) (suggs : List (Int × String)) :
    String × Bool :=
  let r := applyEditsLines (splitLines content) suggs
  (String.intercalate "\n" r.1, r.2)

/-!
Specification-side data model (spec.md section 3): a unified diff is a
sequence of file sections, each made of a header line, preamble lines
(`index`, `---`, `+++`, mode lines, ...) and hunks; a hunk is a header
line carrying a new-file start line, followed by body lines.  The
well-formedness predicates are boolean (hence decidable) so that concrete
witnesses can be checked by `decide`.  They only pin down the features of
well-formed unified-diff text that drive the control flow of
`find_diff_position`: what each kind of line starts with, and that the
hunk header parses to the hunk's new-file start.
-/

/-- A hunk of a unified diff: its header line, the new-file start line the
header carries, and its body lines. -/
structure Hunk where
  header : String
  newStart : Nat
  body : List String
deriving DecidableEq

/-- A file section of a unified diff: its `diff --git` header line, the
preamble lines before the first hunk, and its hunks. -/
structure FileSection where
  header : String
  preamble : List String
  hunks : List Hunk
deriving DecidableEq

/-- A hunk body or preamble line of a well-formed diff starts with neither
`@@` nor `diff --git`. -/
def lineOk (l : String) : Bool :=
  !strStartsWith l "@@" && !strStartsWith l "diff --git"

/-- Well-formedness of a hunk: the header line is an `@@` line parsing to
the hunk's new-file start, and body lines are ordinary diff lines. -/
def hunkWF (h : Hunk) : Bool :=
  strStartsWith h.header "@@" && !strStartsWith h.header "diff --git" &&
  hunkNewStart h.header == some h.newStart &&
  h.body.all lineOk

/-- Well-formedness of a file section: the header is a `diff --git` line,
preamble lines are neither file headers nor hunk headers, hunks are
well-formed. -/
def sectionWF (s : FileSection) : Bool :=
  strStartsWith s.header "diff --git" && !strStartsWith s.header "@@" &&
  s.preamble.all lineOk &&
  s.hunks.all hunkWF

/-- Well-formedness of a whole unified diff. -/
def diffWF (d : List FileSection) : Bool :=
  d.all sectionWF

/-- The rendered line sequence of a list of hunks. -/
def renderHunks (hs : List Hunk) : List String :=
  hs.flatMap fun h => h.header :: h.body

/-- The rendered line sequence of a file section. -/
def renderSection (s : FileSection) : List String :=
  s.header :: (s.preamble ++ renderHunks s.hunks)

/-- The rendered line sequence of a whole unified diff. -/
def renderDiff (d : List FileSection) : List String :=
  d.flatMap renderSection

/-- Does `find_diff_position` select this section for `filePath`?  The code
requires the header to start with `diff --git` and to contain the substring
`b/<filePath>` anywhere in the line (harperbot.py line 52). -/
def sectionMatches (s : FileSection) (filePath : String) : Bool :=
  strStartsWith s.header "diff --git" && strContains s.header ("b/" ++ filePath)

/-- Specification-level search over the hunks of one section: the first
hunk whose body walk finds the target wins. -/
def scanHunks (hs : List Hunk) (target : Nat) : Option Nat :=
  match hs with
  | [] => none
  | h :: rest =>
    match scanHunkBody h.body target h.newStart 1 with
    | some p => some p
    | none => scanHunks rest target

/-- Specification-level resolution over the structured diff: scan sections
in order; a matching section is searched, and when its hunks do not contain
the target the scan continues with the following sections. -/
def resolveSpec (d : List FileSection) (filePath : String) (target : Nat) :
    Option Nat :=
  match d with
  | [] => none
  | s :: rest =>
    if sectionMatches s filePath then
      match scanHunks s.hunks target with
      | some p => some p
      | none => resolveSpec rest filePath target
    else resolveSpec rest filePath target

/-- Bridge from the spec-level optional position to the loop output of the
embedded `find_diff_position`. -/
def asLoopOut : Option Nat → LoopOut
  | some p => .found p
  | none => .notFound

/-- A list whose head (if any) stops the hunk body collection. -/
def stopsCollect (z : List String) : Prop :=
  z = [] ∨ ∃ l z', z = l :: z' ∧
    (strStartsWith l "@@" || strStartsWith l "diff --git") = true

/-- What the inner loop does once past all hunks of a section: finish at
the end of the input, or break at the next file header. -/
def brkOrFinished (z : List String) : InnerRes :=
  match z with
  | [] => .finished
  | l :: z' => .brk (l :: z')

/-- Fuel that dominates the iteration count of both loops over a rendered
well-formed diff. -/
def diffFuel (d : List FileSection) : Nat :=
  (renderDiff d).length + d.length

/-- Does a line advance the new-file line counter in the hunk body walk?
Added and context lines do, removed lines do not (spec.md section 3,
"Invariants"). -/
def advances (l : String) : Bool :=
  if strStartsWith l "+" then true
  else if strStartsWith l "-" then false
  else true

/-- The new-file line number the hunk body walk assigns to the body line at
0-based index `j`, for a hunk whose new-file range starts at `start`. -/
def lineNumberAt (start : Nat) (body : List String) (j : Nat) : Nat :=
  start + (body.take j).countP advances

/-- The number of replacement lines an edit splits into
(`len(suggestion.split("\n"))` in the Python loop). -/
def replLen (e : Int × String) : Nat :=
  (splitLines e.2).length

/-- Every edit of the batch is in bounds at its turn of the application
loop, tracking the running offset and line count exactly as the loop
updates them. -/
def allInBounds (offset : Int) (len : Nat) : List (Int × String) → Bool
  | [] => true
  | e :: rest =>
    decide (0 ≤ e.1 - 1 + offset) &&
    decide (e.1 - 1 + offset < (len : Int)) &&
    allInBounds (offset + ((replLen e : Int) - 1)) (len + replLen e - 1) rest

/-- Total line-count drift of a batch: the sum over its edits of
(number of replacement lines − 1). -/
def sumDrift (suggs : List (Int × String)) : Nat :=
  (suggs.map (fun e => replLen e - 1)).sum

/-- Is this line treated as a hunk header by `parse_diff_for_suggestions`?
It must start with `@@` and parse through the hunk header regex. -/
def isHunkHeaderLine (l : String) : Bool :=
  strStartsWith l "@@" && (hunkNewStart l).isSome

/-- A minimal suggestion block (spec.md section 4.2): its `--- a/<path>`
first line, the preamble lines before the first hunk header (for example
the `+++ b/<path>` line), and its hunks. -/
structure SBlock where
  header : String
  preamble : List String
  hunks : List Hunk
deriving DecidableEq

/-- Well-formedness of a suggestion block: the first line is an old-path
header and is not itself a parseable hunk header, preamble lines are not
parseable hunk headers, and the hunks are well-formed. -/
def blockWF (b : SBlock) : Bool :=
  strStartsWith b.header "--- a/" && !isHunkHeaderLine b.header &&
  b.preamble.all (fun l => !isHunkHeaderLine l) &&
  b.hunks.all hunkWF

/-- The rendered line list of a suggestion block. -/
def renderBlock (b : SBlock) : List String :=
  b.header :: (b.preamble ++ renderHunks b.hunks)

/-- The added lines of one hunk body with the new-file line number the
parser's bookkeeping assigns to each (the counter advances on added and
context lines, not on removed lines), prefixes stripped. -/
def bodyAddedPairs (cur : Nat) : List String → List (Nat × String)
  | [] => []
  | l :: rest =>
    if strStartsWith l "+" then
      (cur, strDrop l 1) :: bodyAddedPairs (cur + 1) rest
    else if strStartsWith l "-" then bodyAddedPairs cur rest
    else bodyAddedPairs (cur + 1) rest

/-- All added lines of a block, across its hunks in order. -/
def blockAdded (b : SBlock) : List (Nat × String) :=
  b.hunks.flatMap fun h => bodyAddedPairs h.newStart h.body

/-- The suggestion a block is specified to parse to: the path from the
header, the line number of the first added line, and all added lines
joined; nothing when there is no added line. -/
def expectedSuggestion (b : SBlock) : Option (String × Nat × String) :=
  match blockAdded b with
  | [] => none
  | (n, s) :: rest =>
    some (strDrop b.header 6, n,
      String.intercalate "\n" (s :: rest.map Prod.snd))

/-- Occurrence of `needle` at index `i` of `s`. -/
def occursAt (s needle : List Char) (i : Nat) : Prop :=
  needle.isPrefixOf (s.drop i) = true

/-- The spec's example suggestion block (spec.md section 8), structured:
old-path header for `test.py`, the `+++` preamble line, one hunk replacing
line 1. -/
def exampleBlock : SBlock :=
  ⟨"--- a/test.py", ["+++ b/test.py"],
    [⟨"@@ -1,1 +1,1 @@", 1, ["-old line", "+new line"]⟩]⟩

/-- The spec's example diff (spec.md section 8), in structured form: one
section for `test.py` with one hunk starting at new-file line 1. -/
def exampleDiff : List FileSection :=
  [⟨"diff --git a/test.py b/test.py", [],
    [⟨"@@ -1,3 +1,3 @@", 1,
      [" old line 1", "-old line 2", "+new line 2", " old line 3"]⟩]⟩]

/-- A structured diff whose single section mentions `b/x.py` only inside
its old path `a/b/x.py`; the new path is `b/y.py`. -/
def oldPathDiff : List FileSection :=
  [⟨"diff --git a/b/x.py b/y.py", [], [⟨"@@ -1 +1 @@", 1, ["+line"]⟩]⟩]

/-- A found index is inside the haystack (for a nonempty needle). -/
theorem findAt_lt_length {needle hay : List Char} {i : Nat}
    (h : findAt needle hay = some i) (hne : needle ≠ []) : i < hay.length := by
  induction hay generalizing i with
  | nil =>
    simp only [findAt, List.isEmpty_iff] at h
    split at h
    · exact absurd (by assumption) hne
    · exact absurd h (by simp)
  | cons c t ih =>
    simp only [findAt] at h
    split at h
    · cases h; simp
    · rcases Option.map_eq_some'.mp h with ⟨i', hi', rfl⟩
      simpa using Nat.succ_lt_succ (ih hi')

/-- The fuel is irrelevant as soon as it exceeds the input length: the
extraction loop consumes at least one character of the suffix per
iteration. -/
theorem extractAuxF_irrel :
    ∀ (f₁ f₂ : Nat) (cs : List Char), cs.length < f₁ → cs.length < f₂ →
      extractAuxF f₁ cs = extractAuxF f₂ cs := by
  intro f₁
  induction f₁ with
  | zero => intro f₂ cs h₁; omega
  | succ f ih =>
    intro f₂ cs h₁ h₂
    match f₂, h₂ with
    | f₂' + 1, h₂ =>
      show extractAuxF (f + 1) cs = extractAuxF (f₂' + 1) cs
      simp only [extractAuxF]
      cases hs : findAt "```diff\n".data cs with
      | none => rfl
      | some i =>
        cases he : findAt "\n```".data (cs.drop (i + 8)) with
        | none => simp only [he]
        | some j =>
          have hi : i < cs.length := findAt_lt_length hs (by decide)
          have hd : (cs.drop (i + 8 + j + 4)).length < f := by
            simp only [List.length_drop]; omega
          have hd₂ : (cs.drop (i + 8 + j + 4)).length < f₂' := by
            simp only [List.length_drop]; omega
          simp only [he, ih f₂' _ hd hd₂]

/-- The hunk body collection loop consumes exactly the body lines of a
well-formed hunk and stops at the following header (or end of input). -/
theorem collectHunk_append {body z : List String}
    (hb : ∀ l ∈ body, lineOk l = true) (hz : stopsCollect z) :
    collectHunk (body ++ z) = (body, z) := by
  induction body with
  | nil =>
    rcases hz with rfl | ⟨l, z', rfl, hl⟩
    · rfl
    · simp [collectHunk, hl]
  | cons b bs ih =>
    have hbOk := hb b (by simp)
    simp only [lineOk, Bool.and_eq_true, Bool.not_eq_true'] at hbOk
    simp [collectHunk, hbOk.1, hbOk.2, ih (fun l hl => hb l (by simp [hl]))]

/-- The inner loop of `find_diff_position` skips ordinary diff lines,
consuming one fuel unit per line. -/
theorem innerLoop_skip {pre : List String} (hp : ∀ l ∈ pre, lineOk l = true)
    (t f : Nat) (z : List String) :
    innerLoop t (pre.length + f) (pre ++ z) = innerLoop t f z := by
  induction pre with
  | nil => simp
  | cons b bs ih =>
    have hbOk := hp b (by simp)
    simp only [lineOk, Bool.and_eq_true, Bool.not_eq_true'] at hbOk
    have hfuel : (b :: bs).length + f = (bs.length + f) + 1 := by
      simp [List.length_cons]; omega
    rw [hfuel, List.cons_append, innerLoop, hbOk.1, hbOk.2]
    simp only [Bool.false_eq_true, if_false]
    exact ih (fun l hl => hp l (by simp [hl]))

/-- Rendering a cons of hunks. -/
theorem renderHunks_cons (h : Hunk) (hs : List Hunk) :
    renderHunks (h :: hs) = h.header :: (h.body ++ renderHunks hs) := by
  simp [renderHunks]

/-- The line list after a well-formed hunk list (followed by a stopping
tail) again stops the body collection. -/
theorem renderHunks_stops {hs : List Hunk} {z : List String}
    (hwf : hs.all hunkWF = true) (hz : stopsCollect z) :
    stopsCollect (renderHunks hs ++ z) := by
  cases hs with
  | nil => simpa [renderHunks] using hz
  | cons h hs =>
    have hh : hunkWF h = true := by
      have := List.all_eq_true.mp hwf h (by simp)
      simpa using this
    simp only [hunkWF, Bool.and_eq_true] at hh
    right
    exact ⟨h.header, (h.body ++ renderHunks hs) ++ z,
      by simp [renderHunks_cons], by simp [hh.1.1.1]⟩

/-- Running the inner loop of `find_diff_position` over the rendered hunks
of a section: the first hunk whose body walk succeeds returns its position;
otherwise the loop ends at the end of input or breaks at the next file
header. -/
theorem innerLoop_hunks {hs : List Hunk} {z : List String} (t : Nat)
    (hwf : hs.all hunkWF = true)
    (hz : z = [] ∨ ∃ l z', z = l :: z' ∧ strStartsWith l "diff --git" = true ∧
      strStartsWith l "@@" = false) :
    ∀ f, innerLoop t (hs.length + (f + 1)) (renderHunks hs ++ z) =
      match scanHunks hs t with
      | some p => .found p
      | none => brkOrFinished z := by
  induction hs with
  | nil =>
    intro f
    rcases hz with rfl | ⟨l, z', rfl, hl, hl2⟩
    · simp [renderHunks, scanHunks, innerLoop, brkOrFinished]
    · simp [renderHunks, scanHunks, innerLoop, brkOrFinished, hl, hl2]
  | cons h hs ih =>
    intro f
    have hh : hunkWF h = true := by
      have := List.all_eq_true.mp hwf h (by simp)
      simpa using this
    have htail : hs.all hunkWF = true := by
      rw [List.all_eq_true] at hwf ⊢
      exact fun x hx => hwf x (by simp [hx])
    simp only [hunkWF, Bool.and_eq_true, beq_iff_eq] at hh
    obtain ⟨⟨⟨hAt, hNotGit⟩, hParse⟩, hBody⟩ := hh
    have hbOk : ∀ l ∈ h.body, lineOk l = true := fun l hl =>
      List.all_eq_true.mp hBody l hl
    have hzWeak : stopsCollect z := by
      rcases hz with rfl | ⟨l, z', rfl, hl, _⟩
      · exact Or.inl rfl
      · exact Or.inr ⟨l, z', rfl, by simp [hl]⟩
    have hcollect : collectHunk (h.body ++ (renderHunks hs ++ z)) =
        (h.body, renderHunks hs ++ z) :=
      collectHunk_append hbOk (renderHunks_stops htail hzWeak)
    have hfuel : (h :: hs).length + (f + 1) = (hs.length + (f + 1)) + 1 := by
      simp [List.length_cons]; omega
    rw [renderHunks_cons, hfuel, List.cons_append, List.append_assoc,
      innerLoop, hAt]
    simp only [if_true, hParse, hcollect]
    cases hscan : scanHunkBody h.body t h.newStart 1 with
    | some p => simp [scanHunks, hscan]
    | none =>
      simp only [scanHunks, hscan]
      exact ih htail f

/-- Rendering a cons of file sections. -/
theorem renderDiff_cons (s : FileSection) (ss : List FileSection) :
    renderDiff (s :: ss) = renderSection s ++ renderDiff ss := by
  simp [renderDiff]

/-- The outer loop of `find_diff_position` skips lines that are not a
matching `diff --git` header, consuming one fuel unit per line. -/
theorem outerLoop_skip {pre : List String} {fp : String}
    (hp : ∀ l ∈ pre,
      (strStartsWith l "diff --git" && strContains l ("b/" ++ fp)) = false)
    (t f : Nat) (z : List String) :
    outerLoop fp t (pre.length + f) (pre ++ z) = outerLoop fp t f z := by
  induction pre with
  | nil => simp
  | cons b bs ih =>
    have hb := hp b (by simp)
    have hfuel : (b :: bs).length + f = (bs.length + f) + 1 := by
      simp [List.length_cons]; omega
    rw [hfuel, List.cons_append, outerLoop, hb]
    simp only [Bool.false_eq_true, if_false]
    exact ih (fun l hl => hp l (by simp [hl]))

/-- Every line of a rendered hunk list is a hunk header or a body line of
one of the hunks. -/
theorem mem_renderHunks {l : String} {hs : List Hunk}
    (h : l ∈ renderHunks hs) : ∃ hk ∈ hs, l = hk.header ∨ l ∈ hk.body := by
  simp only [renderHunks, List.mem_flatMap] at h
  rcases h with ⟨hk, hmem, hin⟩
  exact ⟨hk, hmem, by simpa using hin⟩

/-- No interior line (preamble or rendered hunk) of a well-formed section
satisfies the outer loop's header test. -/
theorem section_interior_skip {s : FileSection} (fp : String)
    (hwf : sectionWF s = true) :
    ∀ l ∈ s.preamble ++ renderHunks s.hunks,
      (strStartsWith l "diff --git" && strContains l ("b/" ++ fp)) = false := by
  intro l hl
  simp only [sectionWF, Bool.and_eq_true] at hwf
  have hgit : strStartsWith l "diff --git" = false := by
    rcases List.mem_append.mp hl with hpre | hhunk
    · have := List.all_eq_true.mp hwf.1.2 l hpre
      simp only [lineOk, Bool.and_eq_true, Bool.not_eq_true'] at this
      exact this.2
    · rcases mem_renderHunks hhunk with ⟨hk, hkmem, rfl | hbody⟩
      · have := List.all_eq_true.mp hwf.2 hk hkmem
        simp only [hunkWF, Bool.and_eq_true, Bool.not_eq_true'] at this
        exact this.1.1.2
      · have := List.all_eq_true.mp hwf.2 hk hkmem
        simp only [hunkWF, Bool.and_eq_true] at this
        have := List.all_eq_true.mp this.2 l hbody
        simp only [lineOk, Bool.and_eq_true, Bool.not_eq_true'] at this
        exact this.2
  simp [hgit]

/-- A hunk list renders to at least one line per hunk. -/
theorem length_renderHunks_ge (hs : List Hunk) :
    hs.length ≤ (renderHunks hs).length := by
  induction hs with
  | nil => simp [renderHunks]
  | cons h hs ih => simp only [renderHunks_cons, List.length_cons,
      List.length_append]; omega

/-- A diff renders to at least one line per section. -/
theorem length_renderDiff_ge (d : List FileSection) :
    d.length ≤ (renderDiff d).length := by
  induction d with
  | nil => simp [renderDiff]
  | cons s ss ih =>
    simp only [renderDiff_cons, renderSection, List.length_cons,
      List.length_append]
    omega

/-- Central refinement: on any rendered well-formed diff, the fuelled
embedding of `find_diff_position` computes the specification-level
resolution, for any sufficiently large fuel of the given shape. -/
theorem outerLoop_refines {d : List FileSection} {fp : String} {t : Nat}
    (hwf : diffWF d = true) :
    ∀ f, outerLoop fp t (diffFuel d + (f + 1)) (renderDiff d) =
      asLoopOut (resolveSpec d fp t) := by
  induction d with
  | nil =>
    intro f
    have : diffFuel ([] : List FileSection) + (f + 1) = f + 1 := by
      simp [diffFuel, renderDiff]
    rw [this]
    simp [renderDiff, resolveSpec, asLoopOut, outerLoop]
  | cons s ss ih =>
    intro f
    have hsec : sectionWF s = true := by
      have := List.all_eq_true.mp hwf s (by simp)
      simpa using this
    have hss : diffWF ss = true := by
      rw [diffWF, List.all_eq_true] at hwf ⊢
      exact fun x hx => hwf x (by simp [hx])
    have hsec' := hsec
    simp only [sectionWF, Bool.and_eq_true, Bool.not_eq_true'] at hsec'
    obtain ⟨⟨⟨hGit, hNotAt⟩, hPre⟩, hHunks⟩ := hsec'
    have hPre' : ∀ l ∈ s.preamble, lineOk l = true := fun l hl =>
      List.all_eq_true.mp hPre l hl
    have hrender : renderDiff (s :: ss) =
        s.header :: (s.preamble ++ (renderHunks s.hunks ++ renderDiff ss)) := by
      simp [renderDiff_cons, renderSection, List.append_assoc]
    have hzshape : renderDiff ss = [] ∨ ∃ l z', renderDiff ss = l :: z' ∧
        strStartsWith l "diff --git" = true ∧ strStartsWith l "@@" = false := by
      cases hss' : ss with
      | nil => left; simp [renderDiff]
      | cons s' rest =>
        right
        have hs' : sectionWF s' = true := by
          have := List.all_eq_true.mp hss s' (by simp [hss'])
          simpa using this
        simp only [sectionWF, Bool.and_eq_true, Bool.not_eq_true'] at hs'
        exact ⟨s'.header, s'.preamble ++ renderHunks s'.hunks ++ renderDiff rest,
          by simp [renderDiff_cons, renderSection, List.append_assoc],
          hs'.1.1.1, hs'.1.1.2⟩
    -- Abbreviations for the lengths involved in the fuel bookkeeping.
    have hLh := length_renderHunks_ge s.hunks
    have hfuel : diffFuel (s :: ss) + (f + 1) =
        (s.preamble.length + ((renderHunks s.hunks).length + diffFuel ss + f + 2)) + 1 := by
      simp only [diffFuel, hrender, List.length_cons, List.length_append]
      omega
    rw [hrender, hfuel, outerLoop]
    by_cases hmatch : (strStartsWith s.header "diff --git" &&
        strContains s.header ("b/" ++ fp)) = true
    · rw [if_pos hmatch]
      have hskip := innerLoop_skip hPre' t
        ((renderHunks s.hunks).length + diffFuel ss + f + 2)
        (renderHunks s.hunks ++ renderDiff ss)
      have hG : (renderHunks s.hunks).length + diffFuel ss + f + 2 =
          s.hunks.length + ((((renderHunks s.hunks).length - s.hunks.length) +
            diffFuel ss + f + 1) + 1) := by omega
      have hhunks := innerLoop_hunks t hHunks hzshape
        (((renderHunks s.hunks).length - s.hunks.length) + diffFuel ss + f + 1)
      rw [hskip, hG, hhunks]
      have hmatches : sectionMatches s fp = true := hmatch
      cases hscan : scanHunks s.hunks t with
      | some p => simp [resolveSpec, hmatches, hscan, asLoopOut]
      | none =>
        simp only [hscan]
        rcases hzshape with hnil | ⟨l, z', hz, _, _⟩
        · cases ss with
          | nil => simp [renderDiff, resolveSpec, hmatches, hscan, asLoopOut,
              brkOrFinished]
          | cons s' rest =>
            exfalso
            simp [renderDiff_cons, renderSection] at hnil
        · rw [hz]
          simp only [brkOrFinished, ← hz]
          have heq : s.preamble.length + (s.hunks.length +
              ((renderHunks s.hunks).length - s.hunks.length +
                diffFuel ss + f + 1 + 1)) = diffFuel ss +
              ((s.preamble.length + (renderHunks s.hunks).length + f + 1) + 1) := by
            omega
          rw [heq, ih hss _]
          simp [resolveSpec, hmatches, hscan]
    · rw [if_neg hmatch]
      have hmatches : sectionMatches s fp = false := by
        simpa [sectionMatches] using hmatch
      have hint := section_interior_skip fp hsec
      have hL : s.preamble.length + ((renderHunks s.hunks).length +
          diffFuel ss + f + 2) =
          (s.preamble ++ renderHunks s.hunks).length + (diffFuel ss + ((f + 1) + 1)) := by
        simp [List.length_append]; omega
      rw [hL, ← List.append_assoc, outerLoop_skip hint, ih hss]
      simp [resolveSpec, hmatches]

/-- The canonical fuel of `find_diff_position_lines` is sufficient on any
rendered well-formed diff: the function computes the specification-level
resolution. -/
theorem find_lines_eq {d : List FileSection} {fp : String} {t : Nat}
    (hwf : diffWF d = true) :
    find_diff_position_lines (renderDiff d) fp t =
      asLoopOut (resolveSpec d fp t) := by
  have hle := length_renderDiff_ge d
  have h2 : 2 * (renderDiff d).length + 2 =
      diffFuel d + ((((renderDiff d).length - d.length) + 1) + 1) := by
    simp only [diffFuel]; omega
  rw [find_diff_position_lines, h2]
  exact outerLoop_refines hwf _

/-- Soundness of the hunk body walk: a returned position points (relative
to the starting position) at an added line whose assigned new-file line
number is the target; the position counter advances on every body line,
the line counter only on lines for which `advances` holds. -/
theorem scanHunkBody_sound {body : List String} {t : Nat} :
    ∀ {cur pos p : Nat}, scanHunkBody body t cur pos = some p →
      ∃ j, p = pos + j ∧ ∃ l, body[j]? = some l ∧
        strStartsWith l "+" = true ∧ cur + (body.take j).countP advances = t := by
  induction body with
  | nil => intro cur pos p h; simp [scanHunkBody] at h
  | cons b bs ih =>
    intro cur pos p h
    simp only [scanHunkBody] at h
    by_cases hplus : strStartsWith b "+" = true
    · rw [if_pos hplus] at h
      by_cases hbeq : (cur == t) = true
      · rw [if_pos hbeq] at h
        obtain rfl : pos = p := by simpa using h
        exact ⟨0, by omega, b, by simp, hplus,
          by simpa using Nat.eq_of_beq_eq_true (by simpa using hbeq)⟩
      · rw [if_neg hbeq] at h
        obtain ⟨j, hp, l, hget, hl, hsum⟩ := ih h
        have hadv : advances b = true := by simp [advances, hplus]
        refine ⟨j + 1, by omega, l, by simpa using hget, hl, ?_⟩
        simp only [List.take_succ_cons, List.countP_cons, hadv, if_true]
        omega
    · rw [if_neg hplus] at h
      by_cases hminus : strStartsWith b "-" = true
      · rw [if_pos hminus] at h
        obtain ⟨j, hp, l, hget, hl, hsum⟩ := ih h
        have hadv : advances b = false := by simp [advances, hplus, hminus]
        refine ⟨j + 1, by omega, l, by simpa using hget, hl, ?_⟩
        simp only [List.take_succ_cons, List.countP_cons, hadv]
        simpa using hsum
      · rw [if_neg hminus] at h
        obtain ⟨j, hp, l, hget, hl, hsum⟩ := ih h
        have hadv : advances b = true := by simp [advances, hplus, hminus]
        refine ⟨j + 1, by omega, l, by simpa using hget, hl, ?_⟩
        simp only [List.take_succ_cons, List.countP_cons, hadv, if_true]
        omega

/-- Completeness of the hunk body walk: when it returns nothing, no added
body line is assigned the target line number. -/
theorem scanHunkBody_none {body : List String} {t : Nat} :
    ∀ {cur pos : Nat}, scanHunkBody body t cur pos = none →
      ∀ j l, body[j]? = some l → strStartsWith l "+" = true →
        cur + (body.take j).countP advances ≠ t := by
  induction body with
  | nil => intro cur pos _ j l hget; simp at hget
  | cons b bs ih =>
    intro cur pos h j l hget hplus'
    simp only [scanHunkBody] at h
    cases j with
    | zero =>
      obtain rfl : b = l := by simpa using hget
      rw [if_pos hplus'] at h
      by_cases hbeq : (cur == t) = true
      · rw [if_pos hbeq] at h; simp at h
      · intro hcontra
        simp only [List.take_zero, List.countP_nil, Nat.add_zero] at hcontra
        exact hbeq (by simpa using hcontra)
    | succ j' =>
      have hget' : bs[j']? = some l := by simpa using hget
      by_cases hplus : strStartsWith b "+" = true
      · rw [if_pos hplus] at h
        by_cases hbeq : (cur == t) = true
        · rw [if_pos hbeq] at h; simp at h
        · rw [if_neg hbeq] at h
          have hadv : advances b = true := by simp [advances, hplus]
          have := ih h j' l hget' hplus'
          simp only [List.take_succ_cons, List.countP_cons, hadv, if_true]
          omega
      · rw [if_neg hplus] at h
        by_cases hminus : strStartsWith b "-" = true
        · rw [if_pos hminus] at h
          have hadv : advances b = false := by simp [advances, hplus, hminus]
          have := ih h j' l hget' hplus'
          simp only [List.take_succ_cons, List.countP_cons, hadv]
          simpa using this
        · rw [if_neg hminus] at h
          have hadv : advances b = true := by simp [advances, hplus, hminus]
          have := ih h j' l hget' hplus'
          simp only [List.take_succ_cons, List.countP_cons, hadv, if_true]
          omega

/-- Soundness of the section-level hunk scan. -/
theorem scanHunks_sound {hs : List Hunk} {t p : Nat}
    (h : scanHunks hs t = some p) :
    ∃ hk ∈ hs, ∃ j, p = j + 1 ∧ ∃ l, hk.body[j]? = some l ∧
      strStartsWith l "+" = true ∧ lineNumberAt hk.newStart hk.body j = t := by
  induction hs with
  | nil => simp [scanHunks] at h
  | cons hk hs ih =>
    simp only [scanHunks] at h
    cases hscan : scanHunkBody hk.body t hk.newStart 1 with
    | some q =>
      rw [hscan] at h
      obtain rfl : q = p := by simpa using h
      obtain ⟨j, hp, l, hget, hl, hsum⟩ := scanHunkBody_sound hscan
      exact ⟨hk, by simp, j, by omega, l, hget, hl,
        by simpa [lineNumberAt] using hsum⟩
    | none =>
      rw [hscan] at h
      obtain ⟨hk', hmem, rest⟩ := ih h
      exact ⟨hk', by simp [hmem], rest⟩

/-- Completeness of the section-level hunk scan. -/
theorem scanHunks_none {hs : List Hunk} {t : Nat}
    (h : ∀ hk ∈ hs, ∀ j l, hk.body[j]? = some l →
      strStartsWith l "+" = true → lineNumberAt hk.newStart hk.body j ≠ t) :
    scanHunks hs t = none := by
  induction hs with
  | nil => rfl
  | cons hk hs ih =>
    simp only [scanHunks]
    cases hscan : scanHunkBody hk.body t hk.newStart 1 with
    | some q =>
      exfalso
      obtain ⟨j, _, l, hget, hl, hsum⟩ := scanHunkBody_sound hscan
      exact h hk (by simp) j l hget hl (by simpa [lineNumberAt] using hsum)
    | none => exact ih (fun hk' hm => h hk' (by simp [hm]))

/-- Soundness of the specification-level resolution. -/
theorem resolveSpec_sound {d : List FileSection} {fp : String} {t p : Nat}
    (h : resolveSpec d fp t = some p) :
    ∃ s ∈ d, sectionMatches s fp = true ∧ scanHunks s.hunks t = some p := by
  induction d with
  | nil => simp [resolveSpec] at h
  | cons s ss ih =>
    simp only [resolveSpec] at h
    by_cases hm : sectionMatches s fp = true
    · rw [if_pos hm] at h
      cases hscan : scanHunks s.hunks t with
      | some q =>
        rw [hscan] at h
        obtain rfl : q = p := by simpa using h
        exact ⟨s, by simp, hm, hscan⟩
      | none =>
        rw [hscan] at h
        obtain ⟨s', hmem, r⟩ := ih h
        exact ⟨s', by simp [hmem], r⟩
    · rw [if_neg hm] at h
      obtain ⟨s', hmem, r⟩ := ih h
      exact ⟨s', by simp [hmem], r⟩

/-- Completeness of the specification-level resolution. -/
theorem resolveSpec_none {d : List FileSection} {fp : String} {t : Nat}
    (h : ∀ s ∈ d, sectionMatches s fp = true → scanHunks s.hunks t = none) :
    resolveSpec d fp t = none := by
  induction d with
  | nil => rfl
  | cons s ss ih =>
    simp only [resolveSpec]
    by_cases hm : sectionMatches s fp = true
    · rw [if_pos hm, h s (by simp) hm]
      exact ih (fun s' hm' => h s' (by simp [hm']))
    · rw [if_neg hm]
      exact ih (fun s' hm' => h s' (by simp [hm']))

/-- **C1**: For every well-formed unified diff, file path and target line,
`find_diff_position` returns a 1-based hunk position `p` such that the
hunk body line at offset `p-1` is an Added line whose new-file line number
equals the target line — the position counter advancing after every hunk
body line (Added, Removed and Context alike) while the new-file line
counter advances only on Added and Context lines — and it returns
NotFound (`None`) when the target line is never an Added line in any hunk
of a matching file section.  In particular, on the spec's example diff,
`resolve(diff, "test.py", 2) == 3`. -/
theorem C1_resolve_position_spec (d : List FileSection) (fp : String)
    (t : Nat) (hwf : diffWF d = true) :
    (∀ p, find_diff_position_lines (renderDiff d) fp t = .found p →
      ∃ s ∈ d, sectionMatches s fp = true ∧ ∃ h ∈ s.hunks, ∃ j, p = j + 1 ∧
        ∃ l, h.body[j]? = some l ∧ strStartsWith l "+" = true ∧
          lineNumberAt h.newStart h.body j = t) ∧
    ((∀ s ∈ d, sectionMatches s fp = true → ∀ h ∈ s.hunks, ∀ j l,
        h.body[j]? = some l → strStartsWith l "+" = true →
        lineNumberAt h.newStart h.body j ≠ t) →
      find_diff_position_lines (renderDiff d) fp t = .notFound) ∧
    find_diff_position
      "diff --git a/test.py b/test.py\n@@ -1,3 +1,3 @@\n old line 1\n-old line 2\n+new line 2\n old line 3"
      "test.py" 2 = .found 3 := by
  refine ⟨?_, ?_, by decide⟩
  · intro p hp
    rw [find_lines_eq hwf] at hp
    cases hres : resolveSpec d fp t with
    | none => rw [hres] at hp; simp [asLoopOut] at hp
    | some q =>
      rw [hres] at hp
      obtain rfl : q = p := by simpa [asLoopOut] using hp
      obtain ⟨s, hmem, hm, hscan⟩ := resolveSpec_sound hres
      obtain ⟨hk, hkmem, j, hj, l, hget, hl, hnum⟩ := scanHunks_sound hscan
      exact ⟨s, hmem, hm, hk, hkmem, j, hj, l, hget, hl, hnum⟩
  · intro hnone
    rw [find_lines_eq hwf,
      resolveSpec_none (fun s hm hmat => scanHunks_none (hnone s hm hmat))]
    rfl

/-- Witness for C1 at the spec's example diff: the structured example is
well-formed, and instantiating the theorem at it discharges its
hypothesis; the rendered example resolves target line 2 to position 3. -/
theorem C1_resolve_position_spec_witness :
    diffWF exampleDiff = true ∧
    find_diff_position_lines (renderDiff exampleDiff) "test.py" 2 = .found 3 ∧
    ((∀ p, find_diff_position_lines (renderDiff exampleDiff) "test.py" 2 = .found p →
      ∃ s ∈ exampleDiff, sectionMatches s "test.py" = true ∧
        ∃ h ∈ s.hunks, ∃ j, p = j + 1 ∧
        ∃ l, h.body[j]? = some l ∧ strStartsWith l "+" = true ∧
          lineNumberAt h.newStart h.body j = 2) ∧
    ((∀ s ∈ exampleDiff, sectionMatches s "test.py" = true →
        ∀ h ∈ s.hunks, ∀ j l,
        h.body[j]? = some l → strStartsWith l "+" = true →
        lineNumberAt h.newStart h.body j ≠ 2) →
      find_diff_position_lines (renderDiff exampleDiff) "test.py" 2 = .notFound) ∧
    find_diff_position
      "diff --git a/test.py b/test.py\n@@ -1,3 +1,3 @@\n old line 1\n-old line 2\n+new line 2\n old line 3"
      "test.py" 2 = .found 3) :=
  ⟨by decide, by decide,
    C1_resolve_position_spec exampleDiff "test.py" 2 (by decide)⟩

/-- **C6 counterexample**: the claim says a section is selected by
suffix-matching the file path against the new-path `b/<path>` form, and
that a section whose header contains the path only in the old-path `a/`
form is not selected.  The code actually tests whether the header contains
the substring `b/<filePath>` anywhere: the first diff's header
`diff --git a/b/x.py b/y.py` references `x.py` only via its old path, yet
the section is selected and position 1 returned (the claim demands
NotFound); the second diff's new path `b/dir/x.py` ends with `x.py`, yet
the section is not selected (the claim demands a found position). -/
theorem C6_counterexample :
    find_diff_position "diff --git a/b/x.py b/y.py\n@@ -1 +1 @@\n+line"
      "x.py" 1 = .found 1 ∧
    find_diff_position "diff --git a/dir/x.py b/dir/x.py\n@@ -1 +1 @@\n+line"
      "x.py" 1 = .notFound :=
  ⟨by decide, by decide⟩

/-- **C6 (amended)**: `find_diff_position` selects the file section to
scan by testing whether the section's `diff --git` header line contains
the substring `b/<filePath>` anywhere in the line (`sectionMatches`); on
well-formed diffs the whole function computes the specification-level
resolution built on this substring test, and when no section header
contains the substring the result is NotFound. -/
theorem C6_selection_by_substring (d : List FileSection) (fp : String)
    (t : Nat) (hwf : diffWF d = true) :
    find_diff_position_lines (renderDiff d) fp t =
      asLoopOut (resolveSpec d fp t) ∧
    ((∀ s ∈ d, strContains s.header ("b/" ++ fp) = false) →
      find_diff_position_lines (renderDiff d) fp t = .notFound) := by
  refine ⟨find_lines_eq hwf, fun hno => ?_⟩
  rw [find_lines_eq hwf, resolveSpec_none (fun s hm hmat => ?_)]
  · rfl
  · exfalso
    have := hno s hm
    simp only [sectionMatches, Bool.and_eq_true] at hmat
    rw [hmat.2] at this
    exact absurd this (by simp)

/-- Witness for C6 (amended) at the old-path diff: its single section is
selected through the substring occurring in the old path, and the
resolution indeed reports position 1. -/
theorem C6_selection_by_substring_witness :
    diffWF oldPathDiff = true ∧
    (find_diff_position_lines (renderDiff oldPathDiff) "x.py" 1 =
        asLoopOut (resolveSpec oldPathDiff "x.py" 1) ∧
      ((∀ s ∈ oldPathDiff, strContains s.header ("b/" ++ "x.py") = false) →
        find_diff_position_lines (renderDiff oldPathDiff) "x.py" 1 = .notFound)) ∧
    find_diff_position_lines (renderDiff oldPathDiff) "x.py" 1 = .found 1 :=
  ⟨by decide, C6_selection_by_substring oldPathDiff "x.py" 1 (by decide),
    by decide⟩

/-- **C7** (the code violates the claim): `find_diff_position` is claimed
total.  On a matched file section containing a line that starts with `@@`
but is not a parseable hunk header, the Python loop never advances its
index `i` (harperbot.py lines 56-59: when the regex fails, no branch of
the loop body moves `i`), so the function loops forever.  In the fuelled
embedding, every fuel value is exhausted on that input. -/
theorem C7_diverges_on_unparseable_hunk_header :
    (∀ fuel, outerLoop "f.py" 1 fuel
      ["diff --git a/f.py b/f.py", "@@ junk"] = .outOfFuel) ∧
    find_diff_position "diff --git a/f.py b/f.py\n@@ junk" "f.py" 1 =
      .outOfFuel := by
  have hinner : ∀ fuel, innerLoop 1 fuel ["@@ junk"] = .outOfFuel := by
    intro fuel
    induction fuel with
    | zero => rfl
    | succ n ih =>
      rw [innerLoop]
      have h1 : strStartsWith "@@ junk" "@@" = true := by decide
      have h2 : hunkNewStart "@@ junk" = none := by decide
      rw [h1, h2]
      simpa using ih
  constructor
  · intro fuel
    cases fuel with
    | zero => rfl
    | succ n =>
      rw [outerLoop]
      have hc : (strStartsWith "diff --git a/f.py b/f.py" "diff --git" &&
          strContains "diff --git a/f.py b/f.py" ("b/" ++ "f.py")) = true := by
        decide
      rw [hc, hinner n]
      rfl
  · decide

/-- Splitting a string at newlines yields at least one segment (Python's
`split` never returns an empty list). -/
theorem splitLinesAux_length_pos (cs : List Char) (acc : List Char) :
    1 ≤ (splitLinesAux cs acc).length := by
  induction cs generalizing acc with
  | nil => simp [splitLinesAux]
  | cons c t ih =>
    simp only [splitLinesAux]
    split
    · simp
    · exact ih _

/-- An edit always has at least one replacement line. -/
theorem replLen_pos (e : Int × String) : 1 ≤ replLen e :=
  splitLinesAux_length_pos e.2.data []

/-- The in-bounds branch of the application loop, written out. -/
theorem applyStep_pos {lines : List String} {off : Int} {ap : Bool}
    {e : Int × String} (h : 0 ≤ e.1 - 1 + off ∧
      e.1 - 1 + off < (lines.length : Int)) :
    applyStep (lines, off, ap) e =
      (lines.take (e.1 - 1 + off).toNat ++ splitLines e.2 ++
        lines.drop ((e.1 - 1 + off).toNat + 1),
       off + (((splitLines e.2).length : Int) - 1), true) := by
  simp only [applyStep]
  rw [if_pos h]

/-- The out-of-bounds branch of the application loop: the edit is skipped
and the state is unchanged. -/
theorem applyStep_neg {st : List String × Int × Bool} {e : Int × String}
    (h : ¬ (0 ≤ e.1 - 1 + st.2.1 ∧
      e.1 - 1 + st.2.1 < (st.1.length : Int))) :
    applyStep st e = st := by
  simp only [applyStep]
  rw [if_neg h]

/-- Once an edit has applied, the `applied` flag stays set for the rest of
the batch. -/
theorem foldl_applyStep_applied_mono :
    ∀ (suggs : List (Int × String)) (st : List String × Int × Bool),
      st.2.2 = true → (suggs.foldl applyStep st).2.2 = true := by
  intro suggs
  induction suggs with
  | nil => intro st h; exact h
  | cons e rest ih =>
    intro st h
    rw [List.foldl_cons]
    apply ih
    by_cases hc : (0 ≤ e.1 - 1 + st.2.1 ∧
        e.1 - 1 + st.2.1 < (st.1.length : Int))
    · obtain ⟨lines, off, ap⟩ := st
      rw [applyStep_pos hc]
    · rw [applyStep_neg hc]
      exact h

/-- If after the whole batch the `applied` flag is still clear, the line
list was never modified. -/
theorem foldl_applyStep_not_applied :
    ∀ (suggs : List (Int × String)) (st : List String × Int × Bool),
      (suggs.foldl applyStep st).2.2 = false →
      (suggs.foldl applyStep st).1 = st.1 := by
  intro suggs
  induction suggs with
  | nil => intro st _; rfl
  | cons e rest ih =>
    intro st h
    rw [List.foldl_cons] at h ⊢
    by_cases hc : (0 ≤ e.1 - 1 + st.2.1 ∧
        e.1 - 1 + st.2.1 < (st.1.length : Int))
    · exfalso
      have hstep : (applyStep st e).2.2 = true := by
        obtain ⟨lines, off, ap⟩ := st
        rw [applyStep_pos hc]
      have := foldl_applyStep_applied_mono rest (applyStep st e) hstep
      rw [h] at this
      exact Bool.noConfusion this
    · rw [applyStep_neg hc] at h ⊢
      exact ih st h

/-- Each in-bounds application adds exactly `replLen − 1` lines; folded
over a batch that stays in bounds, the line count grows by the total
drift. -/
theorem foldl_applyStep_length :
    ∀ (suggs : List (Int × String)) (lines : List String) (off : Int)
      (ap : Bool), allInBounds off lines.length suggs = true →
      ((suggs.foldl applyStep (lines, off, ap)).1.length =
        lines.length + sumDrift suggs) := by
  intro suggs
  induction suggs with
  | nil => intro lines off ap _; simp [sumDrift]
  | cons e rest ih =>
    intro lines off ap h
    simp only [allInBounds, Bool.and_eq_true, decide_eq_true_eq] at h
    obtain ⟨⟨h0, h1⟩, hrest⟩ := h
    have hcond : (0 ≤ e.1 - 1 + off ∧ e.1 - 1 + off < (lines.length : Int)) :=
      ⟨h0, h1⟩
    rw [List.foldl_cons, applyStep_pos hcond]
    have hj : (e.1 - 1 + off).toNat < lines.length := by omega
    have hrl := replLen_pos e
    have hlen : (lines.take (e.1 - 1 + off).toNat ++ splitLines e.2 ++
        lines.drop ((e.1 - 1 + off).toNat + 1)).length =
        lines.length + replLen e - 1 := by
      simp only [List.length_append, List.length_take, List.length_drop,
        replLen]
      omega
    have hb' : allInBounds (off + ((replLen e : Int) - 1))
        (lines.take (e.1 - 1 + off).toNat ++ splitLines e.2 ++
          lines.drop ((e.1 - 1 + off).toNat + 1)).length rest = true := by
      rw [hlen]; exact hrest
    have hoff : off + (((splitLines e.2).length : Int) - 1) =
        off + ((replLen e : Int) - 1) := by simp [replLen]
    rw [hoff, ih _ _ true hb', hlen]
    simp only [sumDrift, List.map_cons, List.sum_cons]
    have : sumDrift rest = (rest.map (fun e => replLen e - 1)).sum := rfl
    omega

/-- **C2**: Every applied edit replaces exactly one original line at the
adjusted index with the (possibly multi-line) replacement — the lines
before the index are preserved, the replacement occupies the index, the
lines after it are shifted by `replLen − 1` — and the running offset grows
by `len(replacementLines) − 1`, irrespective of how many lines the
replacement contains.  In particular the spec's two examples hold:
a single-line and a three-line replacement. -/
theorem C2_apply_replaces_one_line (lines : List String) (off : Int)
    (ap : Bool) (tl : Int) (r : String)
    (h0 : 0 ≤ tl - 1 + off) (h1 : tl - 1 + off < (lines.length : Int)) :
    ((applyStep (lines, off, ap) (tl, r)).1.length + 1 =
        lines.length + (splitLines r).length) ∧
    ((applyStep (lines, off, ap) (tl, r)).2.1 =
        off + (((splitLines r).length : Int) - 1)) ∧
    ((applyStep (lines, off, ap) (tl, r)).2.2 = true) ∧
    (∀ k, k < (tl - 1 + off).toNat →
      (applyStep (lines, off, ap) (tl, r)).1[k]? = lines[k]?) ∧
    (∀ k, k < (splitLines r).length →
      (applyStep (lines, off, ap) (tl, r)).1[(tl - 1 + off).toNat + k]? =
        (splitLines r)[k]?) ∧
    (∀ k, (tl - 1 + off).toNat < k → k < lines.length →
      (applyStep (lines, off, ap) (tl, r)).1[k + (splitLines r).length - 1]? =
        lines[k]?) ∧
    applyEdits "line 1\nline 2\nline 3" [(1, "new line content")] =
      ("new line content\nline 2\nline 3", true) ∧
    applyEdits "line 1\nline 2\nline 3"
      [(2, "new line 1\nnew line 2\nnew line 3")] =
      ("line 1\nnew line 1\nnew line 2\nnew line 3\nline 3", true) := by
  have hcond : (0 ≤ (tl, r).1 - 1 + off ∧
      (tl, r).1 - 1 + off < (lines.length : Int)) := ⟨h0, h1⟩
  rw [applyStep_pos hcond]
  have hj : (tl - 1 + off).toNat < lines.length := by omega
  have hrl : 1 ≤ (splitLines r).length := splitLinesAux_length_pos r.data []
  refine ⟨?_, rfl, rfl, ?_, ?_, ?_, by decide, by decide⟩
  · simp only [List.length_append, List.length_take, List.length_drop]
    omega
  · intro k hk
    rw [List.getElem?_append_left, List.getElem?_append_left, List.getElem?_take]
    · rw [if_pos hk]
    · simp only [List.length_take]; omega
    · simp only [List.length_append, List.length_take]; omega
  · intro k hk
    rw [List.getElem?_append_left, List.getElem?_append_right]
    · simp only [List.length_take]
      congr 1
      omega
    · simp only [List.length_take]; omega
    · simp only [List.length_append, List.length_take]; omega
  · intro k hk1 hk2
    rw [List.getElem?_append_right, List.getElem?_drop]
    · congr 1
      simp only [List.length_append, List.length_take]
      omega
    · simp only [List.length_append, List.length_take]
      omega

/-- Witness for C2 at the spec's single-line example: target line 1,
offset 0, on a three-line file. -/
theorem C2_apply_replaces_one_line_witness :
    (0 : Int) ≤ 1 - 1 + 0 ∧ ((1 : Int) - 1 + 0 <
      ((["line 1", "line 2", "line 3"] : List String).length : Int)) ∧
    ((applyStep (["line 1", "line 2", "line 3"], 0, false)
        (1, "new line content")).1.length + 1 =
      (["line 1", "line 2", "line 3"] : List String).length +
        (splitLines "new line content").length) :=
  ⟨by decide, by decide,
    (C2_apply_replaces_one_line ["line 1", "line 2", "line 3"] 0 false 1
      "new line content" (by decide) (by decide)).1⟩

/-- **C3**: For a batch with pairwise distinct, ascending target lines,
none of which is out of bounds after offset adjustment, the final line
count equals the original count plus the sum over the batch of
(replacement line count − 1). -/
theorem C3_line_count_law (lines : List String) (suggs : List (Int × String))
    (hsorted : suggs.Pairwise (fun a b => a.1 < b.1))
    (hbounds : allInBounds 0 lines.length suggs = true) :
    (applyEditsLines lines suggs).1.length = lines.length + sumDrift suggs := by
  have hsorted' : List.Sorted (fun a b : Int × String => a.1 ≤ b.1) suggs :=
    hsorted.imp le_of_lt
  have hid : List.insertionSort (fun a b : Int × String => a.1 ≤ b.1) suggs =
      suggs := hsorted'.insertionSort_eq
  simp only [applyEditsLines, hid]
  exact foldl_applyStep_length suggs lines 0 false hbounds

/-- Witness for C3: two ascending edits on a three-line file, the first
expanding one line into two. -/
theorem C3_line_count_law_witness :
    allInBounds 0 (["line 1", "line 2", "line 3"] : List String).length
      [((1 : Int), "a\nb"), ((3 : Int), "c")] = true ∧
    (applyEditsLines ["line 1", "line 2", "line 3"]
        [((1 : Int), "a\nb"), ((3 : Int), "c")]).1.length =
      (["line 1", "line 2", "line 3"] : List String).length +
        sumDrift [((1 : Int), "a\nb"), ((3 : Int), "c")] :=
  ⟨by decide,
    C3_line_count_law ["line 1", "line 2", "line 3"]
      [((1 : Int), "a\nb"), ((3 : Int), "c")]
      (by decide) (by decide)⟩

/-- **C4**: An edit whose adjusted index falls outside `[0, lineCount)` is
skipped — the state is unchanged and the fold continues with the remaining
edits of the batch — and if no edit of a batch applies, the result equals
the input.  In particular a single edit targeting line 10 of a three-line
file leaves the content unchanged with the applied flag still clear. -/
theorem C4_out_of_bounds_skips (st : List String × Int × Bool)
    (e : Int × String) (rest : List (Int × String))
    (h : ¬ (0 ≤ e.1 - 1 + st.2.1 ∧
      e.1 - 1 + st.2.1 < (st.1.length : Int))) :
    applyStep st e = st ∧
    (e :: rest).foldl applyStep st = rest.foldl applyStep st ∧
    (∀ lines suggs, (applyEditsLines lines suggs).2 = false →
      (applyEditsLines lines suggs).1 = lines) ∧
    applyEdits "line 1\nline 2\nline 3" [((10 : Int), "new content")] =
      ("line 1\nline 2\nline 3", false) := by
  refine ⟨applyStep_neg h, ?_, ?_, by decide⟩
  · rw [List.foldl_cons, applyStep_neg h]
  · intro lines suggs happ
    simp only [applyEditsLines] at happ ⊢
    exact foldl_applyStep_not_applied _ _ happ

/-- Witness for C4: target line 10 against a three-line file at offset 0
is out of bounds, and the step leaves the state unchanged. -/
theorem C4_out_of_bounds_skips_witness :
    (¬ ((0 : Int) ≤ 10 - 1 + 0 ∧ (10 : Int) - 1 + 0 <
      ((["line 1", "line 2", "line 3"] : List String).length : Int))) ∧
    applyStep (["line 1", "line 2", "line 3"], 0, false)
      ((10 : Int), "new content") =
      (["line 1", "line 2", "line 3"], 0, false) :=
  ⟨by decide,
    (C4_out_of_bounds_skips (["line 1", "line 2", "line 3"], 0, false)
      ((10 : Int), "new content") [] (by decide)).1⟩

/-- **C8**: Because the application loop sorts its batch by target line
before applying, the result is invariant under permutation of the batch
whenever the target lines are pairwise distinct. -/
theorem C8_permutation_invariance (content : String)
    (s₁ s₂ : List (Int × String)) (hperm : List.Perm s₁ s₂)
    (hnodup : (s₁.map Prod.fst).Nodup) :
    applyEdits content s₁ = applyEdits content s₂ := by
  set r : (Int × String) → (Int × String) → Prop :=
    fun a b => a.1 ≤ b.1 with hr
  haveI : IsTotal (Int × String) r := ⟨fun a b => le_total a.1 b.1⟩
  haveI : IsTrans (Int × String) r := ⟨fun _ _ _ hab hbc => le_trans hab hbc⟩
  have hdecEq : List.insertionSort (fun a b : Int × String => a.1 ≤ b.1) s₁ =
      List.insertionSort (fun a b : Int × String => a.1 ≤ b.1) s₂ := by
    have hperm₁ := List.perm_insertionSort r s₁
    have hperm₂ := List.perm_insertionSort r s₂
    have hsorted₁ := List.sorted_insertionSort r s₁
    have hsorted₂ := List.sorted_insertionSort r s₂
    have hnodup₂ : (s₂.map Prod.fst).Nodup :=
      (hperm.map Prod.fst).nodup hnodup
    have hstrict : ∀ (s : List (Int × String)), (s.map Prod.fst).Nodup →
        List.Sorted r (List.insertionSort r s) →
        List.Perm (List.insertionSort r s) s →
        List.Sorted (fun a b : Int × String => a.1 < b.1)
          (List.insertionSort r s) := by
      intro s hnd hsort hp
      have hnd' : ((List.insertionSort r s).map Prod.fst).Nodup :=
        ((hp.map Prod.fst).symm).nodup hnd
      have hne : (List.insertionSort r s).Pairwise
          (fun a b : Int × String => a.1 ≠ b.1) := by
        rw [List.Nodup, List.pairwise_map] at hnd'
        exact hnd'
      have := List.Pairwise.and hsort hne
      exact this.imp (fun hab => lt_of_le_of_ne hab.1 hab.2)
    have hs₁ := hstrict s₁ hnodup hsorted₁ hperm₁
    have hs₂ := hstrict s₂ hnodup₂ hsorted₂ hperm₂
    haveI : IsAntisymm (Int × String) (fun a b : Int × String => a.1 < b.1) :=
      ⟨fun a b hab hba => absurd hba (not_lt.mpr (le_of_lt hab))⟩
    exact List.eq_of_perm_of_sorted
      ((hperm₁.trans hperm).trans hperm₂.symm) hs₁ hs₂
  simp only [applyEdits, applyEditsLines, hdecEq]

/-- Witness for C8: swapping a two-edit batch with distinct target lines
yields the same content. -/
theorem C8_permutation_invariance_witness :
    List.Perm [((2 : Int), "b"), ((1 : Int), "a")]
      [((1 : Int), "a"), ((2 : Int), "b")] ∧
    (([((2 : Int), "b"), ((1 : Int), "a")].map Prod.fst).Nodup) ∧
    applyEdits "x\ny" [((2 : Int), "b"), ((1 : Int), "a")] =
      applyEdits "x\ny" [((1 : Int), "a"), ((2 : Int), "b")] :=
  ⟨by decide, by decide,
    C8_permutation_invariance "x\ny" _ _ (by decide) (by decide)⟩

/-- Before any hunk header has been seen, the parse loop leaves its state
untouched on any line that is not a parseable hunk header — whatever the
line starts with. -/
theorem parseStep_skip {st : ParseState} {l : String}
    (hst : st.hunkStart = none) (hl : isHunkHeaderLine l = false) :
    parseStep st l = st := by
  simp only [isHunkHeaderLine, Bool.and_eq_false_iff] at hl
  simp only [parseStep]
  by_cases hat : strStartsWith l "@@" = true
  · rw [if_pos hat]
    rcases hl with hl | hl
    · exact absurd hat (by simp [hl])
    · have : hunkNewStart l = none := by
        cases hm : hunkNewStart l with
        | none => rfl
        | some n => rw [hm] at hl; simp at hl
      rw [this]
  · rw [if_neg hat, hst]

/-- The parse loop is the identity on a run of lines containing no
parseable hunk header, as long as no hunk header has been seen yet. -/
theorem foldl_parseStep_skip {pre : List String}
    (hp : ∀ l ∈ pre, isHunkHeaderLine l = false) :
    ∀ st : ParseState, st.hunkStart = none → pre.foldl parseStep st = st := by
  induction pre with
  | nil => intro st _; rfl
  | cons l rest ih =>
    intro st hst
    rw [List.foldl_cons, parseStep_skip hst (hp l (by simp))]
    exact ih (fun l' hl' => hp l' (by simp [hl'])) st hst

/-- Folding the parse loop over one hunk body from a state that has seen a
hunk header: the added lines (prefix stripped) are appended to the buffer,
the line counter advances by the number of advancing lines, and the
captured line number becomes that of the first added line when the buffer
was empty. -/
theorem foldl_parseStep_body {body : List String}
    (hbody : ∀ l ∈ body, lineOk l = true) :
    ∀ (k : Nat) (acc : List String) (cur ln : Nat),
      body.foldl parseStep ⟨some k, acc, cur, ln⟩ =
        ⟨some k, acc ++ (bodyAddedPairs cur body).map Prod.snd,
         cur + body.countP advances,
         if acc.isEmpty then
           (match bodyAddedPairs cur body with
            | [] => ln
            | (n, _) :: _ => n)
         else ln⟩ := by
  induction body with
  | nil =>
    intro k acc cur ln
    simp [bodyAddedPairs, ite_self]
  | cons l rest ih =>
    intro k acc cur ln
    have hlOk := hbody l (by simp)
    simp only [lineOk, Bool.and_eq_true, Bool.not_eq_true'] at hlOk
    have hrest : ∀ l' ∈ rest, lineOk l' = true := fun l' hl' =>
      hbody l' (by simp [hl'])
    rw [List.foldl_cons]
    by_cases hplus : strStartsWith l "+" = true
    · have hstep : parseStep ⟨some k, acc, cur, ln⟩ l =
          ⟨some k, acc ++ [strDrop l 1], cur + 1,
            if acc.isEmpty then cur else ln⟩ := by
        simp [parseStep, hlOk.1, hplus]
      rw [hstep, ih hrest]
      have hadv : advances l = true := by simp [advances, hplus]
      simp only [bodyAddedPairs, hplus, if_true, List.map_cons,
        List.countP_cons, hadv, ParseState.mk.injEq]
      refine ⟨trivial, by simp, by omega, by cases acc <;> simp⟩
    · by_cases hminus : strStartsWith l "-" = true
      · have hstep : parseStep ⟨some k, acc, cur, ln⟩ l =
            ⟨some k, acc, cur, ln⟩ := by
          simp [parseStep, hlOk.1, hplus, hminus]
        rw [hstep, ih hrest]
        have hadv : advances l = false := by simp [advances, hplus, hminus]
        have hpairs : bodyAddedPairs cur (l :: rest) =
            bodyAddedPairs cur rest := by
          simp [bodyAddedPairs, hplus, hminus]
        simp only [hpairs, List.countP_cons, hadv, ParseState.mk.injEq]
        refine ⟨trivial, trivial, by simp, trivial⟩
      · have hstep : parseStep ⟨some k, acc, cur, ln⟩ l =
            ⟨some k, acc, cur + 1, ln⟩ := by
          simp [parseStep, hlOk.1, hplus, hminus]
        rw [hstep, ih hrest]
        have hadv : advances l = true := by simp [advances, hplus, hminus]
        have hpairs : bodyAddedPairs cur (l :: rest) =
            bodyAddedPairs (cur + 1) rest := by
          simp [bodyAddedPairs, hplus, hminus]
        simp only [hpairs, List.countP_cons, hadv, ParseState.mk.injEq]
        refine ⟨trivial, trivial, by simp only [if_true]; omega, trivial⟩

/-- Folding the parse loop over a rendered hunk list: each hunk header
resets the counter to its new-file start, and the bodies contribute their
added lines in order; the captured line number is that of the first added
line overall when the incoming buffer is empty. -/
theorem foldl_parseStep_hunks {hs : List Hunk} (hwf : hs.all hunkWF = true) :
    ∀ (hsOpt : Option Nat) (acc : List String) (cur ln : Nat),
      ∃ hsOpt' cur',
      (renderHunks hs).foldl parseStep ⟨hsOpt, acc, cur, ln⟩ =
        ⟨hsOpt',
         acc ++ ((hs.flatMap fun h => bodyAddedPairs h.newStart h.body).map
           Prod.snd),
         cur',
         if acc.isEmpty then
           (match hs.flatMap fun h => bodyAddedPairs h.newStart h.body with
            | [] => ln
            | (n, _) :: _ => n)
         else ln⟩ := by
  induction hs with
  | nil =>
    intro hsOpt acc cur ln
    exact ⟨hsOpt, cur, by simp [renderHunks, ite_self]⟩
  | cons h hs ih =>
    intro hsOpt acc cur ln
    have hh : hunkWF h = true := by
      have := List.all_eq_true.mp hwf h (by simp)
      simpa using this
    have htail : hs.all hunkWF = true := by
      rw [List.all_eq_true] at hwf ⊢
      exact fun x hx => hwf x (by simp [hx])
    simp only [hunkWF, Bool.and_eq_true, beq_iff_eq] at hh
    obtain ⟨⟨⟨hAt, _⟩, hParse⟩, hBody⟩ := hh
    have hbOk : ∀ l ∈ h.body, lineOk l = true := fun l hl =>
      List.all_eq_true.mp hBody l hl
    rw [renderHunks_cons, List.foldl_cons, List.foldl_append]
    have hstep : parseStep ⟨hsOpt, acc, cur, ln⟩ h.header =
        ⟨some h.newStart, acc, h.newStart, ln⟩ := by
      simp [parseStep, hAt, hParse]
    rw [hstep, foldl_parseStep_body hbOk]
    obtain ⟨o', c', hres⟩ := ih htail (some h.newStart)
      (acc ++ (bodyAddedPairs h.newStart h.body).map Prod.snd)
      (h.newStart + h.body.countP advances)
      (if acc.isEmpty then
        (match bodyAddedPairs h.newStart h.body with
         | [] => ln | (n, _) :: _ => n) else ln)
    refine ⟨o', c', ?_⟩
    rw [hres]
    simp only [ParseState.mk.injEq, List.flatMap_cons, List.map_append,
      List.append_assoc, true_and]
    cases acc with
    | cons a as => simp
    | nil =>
      cases hp : bodyAddedPairs h.newStart h.body with
      | nil => simp
      | cons q qs => simp [hp]

/-- On any rendered well-formed suggestion block, `parse_diff_for_suggestions`
(past the strip/split preprocessing) returns exactly the suggestion
described by the spec: path from the header, target line of the first
added line, all added lines joined; nothing when no line was added. -/
theorem parse_lines_renderBlock {b : SBlock} (hwf : blockWF b = true) :
    parse_lines (renderBlock b) = expectedSuggestion b := by
  simp only [blockWF, Bool.and_eq_true, Bool.not_eq_true'] at hwf
  obtain ⟨⟨⟨hHdr, hHdrNotHunk⟩, hPre⟩, hHunks⟩ := hwf
  have hPre' : ∀ l ∈ b.preamble, isHunkHeaderLine l = false := by
    intro l hl
    have := List.all_eq_true.mp hPre l hl
    simpa using this
  rw [renderBlock]
  simp only [parse_lines, hHdr, if_true]
  rw [List.foldl_cons, parseStep_skip rfl hHdrNotHunk, List.foldl_append,
    foldl_parseStep_skip hPre' _ rfl]
  obtain ⟨o', c', hres⟩ := foldl_parseStep_hunks hHunks none [] 0 0
  rw [hres]
  cases hp : blockAdded b with
  | nil =>
    rw [blockAdded] at hp
    simp [hp, expectedSuggestion, blockAdded]
  | cons q qs =>
    rw [blockAdded] at hp
    simp [hp, expectedSuggestion, blockAdded]

/-- **C5**: `parse_diff_for_suggestions` returns the triple (file path
taken from a `--- a/<path>` first line, target line equal to the new-file
line number of the first `+`-prefixed body line, replacement text equal to
the `+`-prefixed body lines joined with their prefixes stripped, `-` lines
dropped without advancing the line counter) whenever the header is present
and at least one added line exists; it returns `None` when the first line
is not a `--- a/` header or no added line was found.  In particular the
spec's sample block parses to `("test.py", 1, "new line")`. -/
theorem C5_parse_suggestion_spec (b : SBlock) (hwf : blockWF b = true) :
    parse_lines (renderBlock b) = expectedSuggestion b ∧
    (∀ (l0 : String) (rest : List String),
      strStartsWith l0 "--- a/" = false → parse_lines (l0 :: rest) = none) ∧
    parse_diff_for_suggestions
      "--- a/test.py\n+++ b/test.py\n@@ -1,1 +1,1 @@\n-old line\n+new line" =
      some ("test.py", 1, "new line") := by
  refine ⟨parse_lines_renderBlock hwf, ?_, by decide⟩
  intro l0 rest h
  simp [parse_lines, h]

/-- Witness for C5 at the spec's sample block: it is well-formed, the
instantiated theorem applies, and the expected suggestion is the sample
triple. -/
theorem C5_parse_suggestion_spec_witness :
    blockWF exampleBlock = true ∧
    expectedSuggestion exampleBlock = some ("test.py", 1, "new line") ∧
    (parse_lines (renderBlock exampleBlock) = expectedSuggestion exampleBlock ∧
      (∀ (l0 : String) (rest : List String),
        strStartsWith l0 "--- a/" = false → parse_lines (l0 :: rest) = none) ∧
      parse_diff_for_suggestions
        "--- a/test.py\n+++ b/test.py\n@@ -1,1 +1,1 @@\n-old line\n+new line" =
        some ("test.py", 1, "new line")) :=
  ⟨by decide, by decide, C5_parse_suggestion_spec exampleBlock (by decide)⟩

/-- **C10**: body lines occurring before the first parseable hunk header
contribute neither to the replacement buffer nor to the target line: the
parse loop leaves its initial state untouched on them (in particular on
the `+`-prefixed `+++ b/<path>` new-path header line), and dropping such a
preamble does not change the parse result. -/
theorem C10_pre_hunk_lines_inert (l0 : String) (pre rest : List String)
    (h0 : strStartsWith l0 "--- a/" = true)
    (hh : isHunkHeaderLine l0 = false)
    (hp : ∀ l ∈ pre, isHunkHeaderLine l = false) :
    ((l0 :: pre).foldl parseStep ⟨none, [], 0, 0⟩ = ⟨none, [], 0, 0⟩) ∧
    parse_lines (l0 :: (pre ++ rest)) = parse_lines (l0 :: rest) := by
  have hfold : (l0 :: pre).foldl parseStep ⟨none, [], 0, 0⟩ =
      ⟨none, [], 0, 0⟩ := by
    rw [List.foldl_cons, parseStep_skip rfl hh]
    exact foldl_parseStep_skip hp _ rfl
  refine ⟨hfold, ?_⟩
  simp only [parse_lines, h0, if_true]
  have hfolds : (l0 :: (pre ++ rest)).foldl parseStep ⟨none, [], 0, 0⟩ =
      (l0 :: rest).foldl parseStep ⟨none, [], 0, 0⟩ := by
    rw [List.foldl_cons, List.foldl_cons, parseStep_skip rfl hh,
      List.foldl_append, foldl_parseStep_skip hp _ rfl]
  rw [hfolds]

/-- Witness for C10: the `+++ b/test.py` line before the hunk header of
the spec's sample block contributes nothing; the parse state after the
header and preamble is still the initial one, and the parse result with
and without the preamble line agree. -/
theorem C10_pre_hunk_lines_inert_witness :
    isHunkHeaderLine "--- a/test.py" = false ∧
    ((("--- a/test.py" :: ["+++ b/test.py"]).foldl parseStep
        ⟨none, [], 0, 0⟩ = ⟨none, [], 0, 0⟩) ∧
      parse_lines ("--- a/test.py" ::
          (["+++ b/test.py"] ++ ["@@ -1,1 +1,1 @@", "-old line", "+new line"])) =
        parse_lines ("--- a/test.py" ::
          ["@@ -1,1 +1,1 @@", "-old line", "+new line"])) :=
  ⟨by decide,
    C10_pre_hunk_lines_inert "--- a/test.py" ["+++ b/test.py"]
      ["@@ -1,1 +1,1 @@", "-old line", "+new line"]
      (by decide) (by decide) (by decide)⟩

/-- A successful `findAt` returns the least occurrence of the needle. -/
theorem findAt_some_occurs {needle hay : List Char} {i : Nat}
    (h : findAt needle hay = some i) :
    occursAt hay needle i ∧ ∀ k, k < i → ¬ occursAt hay needle k := by
  induction hay generalizing i with
  | nil =>
    simp only [findAt] at h
    by_cases hne : needle.isEmpty = true
    · rw [if_pos hne] at h
      obtain rfl : (0 : Nat) = i := by simpa using h
      refine ⟨?_, fun k hk => absurd hk (by omega)⟩
      have : needle = [] := by simpa [List.isEmpty_iff] using hne
      simp [occursAt, this, List.isPrefixOf]
    · rw [if_neg hne] at h
      exact absurd h (by simp)
  | cons c t ih =>
    simp only [findAt] at h
    by_cases hpre : needle.isPrefixOf (c :: t) = true
    · rw [if_pos hpre] at h
      obtain rfl : (0 : Nat) = i := by simpa using h
      exact ⟨by simpa [occursAt] using hpre, fun k hk => absurd hk (by omega)⟩
    · rw [if_neg hpre] at h
      rcases Option.map_eq_some'.mp h with ⟨i', hi', rfl⟩
      obtain ⟨hocc, hmin⟩ := ih hi'
      refine ⟨by simpa [occursAt, List.drop_succ_cons] using hocc, ?_⟩
      intro k hk
      cases k with
      | zero =>
        intro hocc0
        simp only [occursAt, List.drop_zero] at hocc0
        exact hpre hocc0
      | succ k' =>
        intro hocck
        exact hmin k' (by omega)
          (by simpa [occursAt, List.drop_succ_cons] using hocck)

/-- A failed `findAt` means the needle occurs nowhere. -/
theorem findAt_none_no_occurrence {needle hay : List Char}
    (h : findAt needle hay = none) : ∀ k, ¬ occursAt hay needle k := by
  induction hay with
  | nil =>
    intro k hocc
    simp only [findAt] at h
    by_cases hne : needle.isEmpty = true
    · rw [if_pos hne] at h; exact absurd h (by simp)
    · simp only [occursAt, List.drop_nil] at hocc
      cases needle with
      | nil => simp at hne
      | cons a as => simp [List.isPrefixOf] at hocc
  | cons c t ih =>
    intro k hocc
    simp only [findAt] at h
    by_cases hpre : needle.isPrefixOf (c :: t) = true
    · rw [if_pos hpre] at h; exact absurd h (by simp)
    · rw [if_neg hpre] at h
      have hnone : findAt needle t = none := by
        cases hft : findAt needle t with
        | none => rfl
        | some v => rw [hft] at h; simp at h
      cases k with
      | zero =>
        simp only [occursAt, List.drop_zero] at hocc
        exact hpre hocc
      | succ k' =>
        exact ih hnone k'
          (by simpa [occursAt, List.drop_succ_cons] using hocc)

/-- **C9**: the fenced-block extraction of `parse_code_suggestions`
returns exactly the non-overlapping spans delimited by a
<code>```diff\n</code> start marker and the next following
<code>\n```</code> end marker, scanned left to right: the extraction finds
the least start-marker occurrence, then the least end-marker occurrence
after it, emits the span between them, and continues past the end marker;
when no start marker occurs nothing is emitted, and a start marker with no
following end marker is dropped silently, without a partial block.  The
concrete example has two terminated blocks and one unterminated trailer. -/
theorem C9_extract_blocks_spec (s : List Char) (i j : Nat)
    (h1 : findAt "```diff\n".data s = some i)
    (h2 : findAt "\n```".data (s.drop (i + 8)) = some j) :
    (occursAt s "```diff\n".data i ∧
      ∀ k, k < i → ¬ occursAt s "```diff\n".data k) ∧
    (occursAt (s.drop (i + 8)) "\n```".data j ∧
      ∀ k, k < j → ¬ occursAt (s.drop (i + 8)) "\n```".data k) ∧
    extractAux s =
      String.mk ((s.drop (i + 8)).take j) ::
        extractAux (s.drop (i + 8 + j + 4)) ∧
    (∀ s' : List Char, findAt "```diff\n".data s' = none →
      extractAux s' = []) ∧
    (∀ (s' : List Char) (i' : Nat), findAt "```diff\n".data s' = some i' →
      findAt "\n```".data (s'.drop (i' + 8)) = none → extractAux s' = []) ∧
    extractDiffBlocks "pre```diff\nA\n```mid```diff\nB\n```post```diff\nbad" =
      ["A", "B"] := by
  refine ⟨findAt_some_occurs h1, findAt_some_occurs h2, ?_, ?_, ?_, by decide⟩
  · have hi : i < s.length := findAt_lt_length h1 (by decide)
    rw [extractAux, extractAuxF]
    simp only [h1, h2]
    congr 1
    rw [extractAux]
    apply extractAuxF_irrel
    · simp only [List.length_drop]; omega
    · simp only [List.length_drop]; omega
  · intro s' hnone
    rw [extractAux, extractAuxF]
    simp [hnone]
  · intro s' i' hsome hnone
    rw [extractAux, extractAuxF]
    simp [hsome, hnone]

/-- Witness for C9 on a concrete text: the start marker first occurs at
index 1, the end marker 4 characters into the remainder, and the theorem
applies. -/
theorem C9_extract_blocks_spec_witness :
    findAt "```diff\n".data "x```diff\nBODY\n```y".data = some 1 ∧
    findAt "\n```".data ("x```diff\nBODY\n```y".data.drop (1 + 8)) = some 4 ∧
    ((occursAt "x```diff\nBODY\n```y".data "```diff\n".data 1 ∧
      ∀ k, k < 1 → ¬ occursAt "x```diff\nBODY\n```y".data "```diff\n".data k) ∧
    (occursAt ("x```diff\nBODY\n```y".data.drop (1 + 8)) "\n```".data 4 ∧
      ∀ k, k < 4 →
        ¬ occursAt ("x```diff\nBODY\n```y".data.drop (1 + 8)) "\n```".data k) ∧
    extractAux "x```diff\nBODY\n```y".data =
      String.mk (("x```diff\nBODY\n```y".data.drop (1 + 8)).take 4) ::
        extractAux ("x```diff\nBODY\n```y".data.drop (1 + 8 + 4 + 4)) ∧
    (∀ s' : List Char, findAt "```diff\n".data s' = none →
      extractAux s' = []) ∧
    (∀ (s' : List Char) (i' : Nat), findAt "```diff\n".data s' = some i' →
      findAt "\n```".data (s'.drop (i' + 8)) = none → extractAux s' = []) ∧
    extractDiffBlocks "pre```diff\nA\n```mid```diff\nB\n```post```diff\nbad" =
      ["A", "B"]) :=
  ⟨by decide, by decide,
    C9_extract_blocks_spec "x```diff\nBODY\n```y".data 1 4
      (by decide) (by decide)⟩

end Harperbot
